import Mathlib

set_option maxRecDepth 100000

/-!
Verification development for the openclaw-memory-memu plugin core
(`index.ts`): the capture/recall decision engine sitting between the
agent lifecycle and the external memU engine process.

The TypeScript source is shallowly embedded: strings are `String`
(lists of characters), JavaScript regular-expression operations used by
the source are implemented character-by-character with the exact
scanning semantics of `String.prototype.replace` / `RegExp.prototype.test`,
the mutable module-level maintenance clock becomes explicit state
threading, and the asynchronous engine gateway becomes a pure function
of the spawned process's outcome.
-/

/-! ## JavaScript character classes

`isJsWs` is the character set matched by `\s` in JavaScript regular
expressions and trimmed by `String.prototype.trim`. -/

def isJsWs (c : Char) : Bool :=
  c = ' ' || c = '\t' || c = '\n' || c = '\r' ||
  c.val = 0x0b || c.val = 0x0c || c.val = 0xa0 || c.val = 0x1680 ||
  (0x2000 ≤ c.val && c.val ≤ 0x200a) ||
  c.val = 0x2028 || c.val = 0x2029 || c.val = 0x202f || c.val = 0x205f ||
  c.val = 0x3000 || c.val = 0xfeff

/-- The `\x7b` character (left curly brace), used by `shouldCapture`'s
tool-output heuristic and by the JSON grammar. -/
def lbrace : Char := Char.ofNat 123

/-- The `\x7d` character (right curly brace). -/
def rbrace : Char := Char.ofNat 125

/-- Backtick, the fenced-code marker character. -/
def btick : Char := Char.ofNat 96

/-- Apostrophe (single quote), occurring in some noise patterns. -/
def apos : Char := Char.ofNat 39

/-! ## JS string helpers on `List Char` -/

/-- Drop trailing characters satisfying `p` (mirror of `dropWhile` at the
end of the list). -/
def dropTrailing (p : Char → Bool) (l : List Char) : List Char :=
  (l.reverse.dropWhile p).reverse

/-- `String.prototype.trim`: remove leading and trailing JS whitespace. -/
def trimList (l : List Char) : List Char :=
  dropTrailing isJsWs (l.dropWhile isJsWs)

/-- `String.prototype.trim` at the `String` level. -/
def jsTrim (s : String) : String :=
  String.mk (trimList s.data)

/-- Substring containment: `containsSub pat l` is true iff `pat` occurs
contiguously inside `l` (the semantics of an unanchored literal regex
test in JavaScript). -/
def containsSub (pat : List Char) (l : List Char) : Bool :=
  match l with
  | [] => pat.isEmpty
  | _ :: rest => pat.isPrefixOf l || containsSub pat rest

/-- Split `l` at the first (leftmost) occurrence of `pat`:
returns `some (before, after)` with `l = before ++ pat ++ after` and no
occurrence of `pat` starting earlier, or `none` when `pat` does not
occur.  This is the search a lazy `[\s\S]*?` performs between two
literal delimiters. -/
def splitFirst (pat : List Char) : List Char → Option (List Char × List Char)
  | [] => if pat.isEmpty then some ([], []) else none
  | c :: rest =>
    if pat.isPrefixOf (c :: rest) then some ([], (c :: rest).drop pat.length)
    else
      match splitFirst pat rest with
      | some (b, a) => some (c :: b, a)
      | none => none

/-- `(s : String).startsWith pre` as JavaScript computes it. -/
def jsStartsWith (s pre : String) : Bool :=
  pre.data.isPrefixOf s.data

/-! ## stripMemoryTags

Source (`index.ts`):
```
function stripMemoryTags(text: string): string {
  return text.replace(/<relevant-memories>[\s\S]*?<\/relevant-memories>\s*/g, "").trim();
}
```
`stripCore` performs the global replace: it scans left to right; at each
position it tries to match the literal open marker, then (lazily) the
nearest close marker, then greedily trailing whitespace; a successful
match is deleted and scanning resumes after it; otherwise the character
is kept and scanning advances one position.  `fuel` bounds the
recursion; `stripMemoryTags` supplies the input length, which is always
sufficient because every step consumes at least one character. -/

def openTag : List Char := "<relevant-memories>".data

def closeTag : List Char := "</relevant-memories>".data

def stripCore : Nat → List Char → List Char
  | 0, l => l
  | _ + 1, [] => []
  | fuel + 1, c :: rest =>
    if openTag.isPrefixOf (c :: rest) then
      match splitFirst closeTag ((c :: rest).drop openTag.length) with
      | some (_, after) => stripCore fuel (after.dropWhile isJsWs)
      | none => c :: stripCore fuel rest
    else c :: stripCore fuel rest

/-- `stripMemoryTags` from the source: delete every
`<relevant-memories>…</relevant-memories>` block (plus trailing
whitespace), then trim. -/
def stripMemoryTags (text : String) : String :=
  String.mk (trimList (stripCore text.data.length text.data))

/-! ## shouldCapture

Source (`index.ts`), the Capture Filter: ordered cheap checks with
short-circuit on the first rejection.  The regular expressions are
embedded as follows: every noise pattern is an alternation of literals,
so a `test` is a (case-insensitive where the `i` flag is set) substring
search; `/^\s*$/` holds iff every character is JS whitespace;
`/^(User|Assistant):\s*$/gm` removal and the anchored heartbeat test get
dedicated scanners below with the exact backtracking semantics. -/

/-- ASCII lowercasing, the canonicalization JavaScript applies for a
case-insensitive (`/i`, no `/u`) regex over ASCII pattern characters:
non-ASCII characters never canonicalize to ASCII ones. -/
def lowerAscii (c : Char) : Char :=
  if c.val ≥ 65 && c.val ≤ 90 then Char.ofNat (c.toNat + 32) else c

/-- Case-insensitive substring test (`pat` must already be lowercase). -/
def containsSubCI (pat : List Char) (l : List Char) : Bool :=
  containsSub pat (l.map lowerAscii)

/-- The fixed noise patterns of `shouldCapture`, tested against the
markup-stripped text.  Each JavaScript regex is an alternation of
literals; `/i`-flagged ones are matched case-insensitively. -/
def noiseHit (l : List Char) : Bool :=
  containsSubCI ("i don".data ++ [apos] ++ "t have access to".data) l ||
  containsSubCI "i cannot summarize".data l ||
  containsSubCI "i cannot process".data l ||
  containsSubCI "i cannot access".data l ||
  containsSubCI "i cannot read".data l ||
  containsSub "NO_REPLY".data l ||
  containsSub "HEARTBEAT_OK".data l ||
  containsSub "[MISSING]".data l ||
  containsSub "GatewayRestart".data l ||
  containsSub "Error:".data l ||
  containsSub "error:".data l ||
  containsSub "ENOENT".data l ||
  containsSub "ETIMEDOUT".data l ||
  containsSub "ECONNREFUSED".data l ||
  containsSubCI "i cannot fulfill".data l ||
  containsSubCI ("i".data ++ [apos] ++ "m unable to".data) l ||
  containsSubCI ("i don".data ++ [apos] ++ "t have the ability".data) l ||
  containsSubCI "[compacted:".data l ||
  containsSubCI "truncated:".data l

/-- Index of the last element satisfying `p`, or `none`. -/
def findLastIdx {α : Type} (p : α → Bool) : List α → Option Nat
  | [] => none
  | c :: rest =>
    match findLastIdx p rest with
    | some i => some (i + 1)
    | none => if p c then some 0 else none

/-- After a role label and its colon, how far the `\s*$` part of
`/^(User|Assistant):\s*$/m` extends into `l`: the greedy `\s*`
backtracks to the longest whitespace prefix after which `$` holds
(end of string, or the next character is `'\n'`).  Returns the number
of whitespace characters the match consumes, or `none` when no
position satisfies `$` (so the whole alternative fails). -/
def wsRunToLineEnd (l : List Char) : Option Nat :=
  let run := l.takeWhile isJsWs
  let rest := l.drop run.length
  if rest = [] then some run.length
  else findLastIdx (fun c => c = '\n') run


/-- Attempt `/^(User|Assistant):\s*$/` at the current position (which the
caller guarantees is a line start).  On success returns
`(last consumed character was a newline, remainder after the match)`,
which the global scan needs to know whether the resumption point is
again a line start. -/
def tryEmptyRoleLine (l : List Char) : Option (Bool × List Char) :=
  let tryTag (tag : List Char) : Option (Bool × List Char) :=
    if tag.isPrefixOf l then
      let after := l.drop tag.length
      match wsRunToLineEnd after with
      | some j =>
        let run := after.takeWhile isJsWs
        let lastConsumed : Char := if j = 0 then ':' else run.getD (j - 1) ' '
        some (lastConsumed = '\n', after.drop j)
      | none => none
    else none
  match tryTag "User:".data with
  | some r => some r
  | none => tryTag "Assistant:".data

/-- Global scan of `stripped.replace(/^(User|Assistant):\s*$/gm, "")`:
at every line-start position try the empty-role-line match and delete
it; otherwise keep the character and advance.  `fuel` bounds recursion
(each step consumes at least one character). -/
def rerlCore : Nat → Bool → List Char → List Char
  | 0, _, l => l
  | _ + 1, _, [] => []
  | fuel + 1, atStart, c :: rest =>
    if atStart then
      match tryEmptyRoleLine (c :: rest) with
      | some (nl, rem) => rerlCore fuel nl rem
      | none => c :: rerlCore fuel (c = '\n') rest
    else c :: rerlCore fuel (c = '\n') rest

/-- `stripped.replace(/^(User|Assistant):\s*$/gm, "").trim()` from check 6
of `shouldCapture`. -/
def withoutEmptyRoles (l : List Char) : List Char :=
  trimList (rerlCore l.length true l)

/-- `/^(User:.*HEARTBEAT.*\n?Assistant:.*HEARTBEAT_OK)/is.test(stripped)`:
anchored at the start; with the `s` flag every `.*` crosses newlines and
the optional `\n?` is absorbed, so matchability is equivalent to the
chained leftmost-occurrence search below (later witnesses only have
more room, so taking each first occurrence is complete). -/
def heartbeatOnly (l : List Char) : Bool :=
  let low := l.map lowerAscii
  "user:".data.isPrefixOf low &&
  (match splitFirst "heartbeat".data (low.drop 5) with
   | some (_, r1) =>
     (match splitFirst "assistant:".data r1 with
      | some (_, r2) => containsSub "heartbeat_ok".data r2
      | none => false)
   | none => false)

/-- The Capture Filter `shouldCapture` from the source: ordered checks,
short-circuiting on the first rejection.  (Lengths are counted in
characters; all characters involved here are in the basic multilingual
plane, where this agrees with JavaScript's UTF-16 `length`.) -/
def shouldCapture (text : String) : Bool :=
  if text.data.length < 20 then false
  else if [lbrace].isPrefixOf text.data || [btick, btick, btick].isPrefixOf text.data then false
  else
    let stripped := stripMemoryTags text
    if stripped.data.length < 50 then false
    else if stripped.data.all isJsWs then false
    else if noiseHit stripped.data then false
    else if (withoutEmptyRoles stripped.data).length < 50 then false
    else if heartbeatOnly stripped.data then false
    else true

/-- The rendered heartbeat probe/acknowledgment exchange: a `User:` line
containing the heartbeat probe followed by an `Assistant:` line
containing the acknowledgment sentinel. -/
def heartbeatExchange (probe ack : String) : String :=
  "User: " ++ probe ++ "\nAssistant: " ++ ack

/-! ## Transcript entries, parsed messages and the Turn Extractor

Source: the `agent_end` handler.  A raw transcript entry is anything;
only structured objects with `role` exactly `"user"` or `"assistant"`
and non-empty trimmed flattened content survive parsing.  Content is a
plain string, or an array of typed blocks of which only `text` blocks
contribute, or something else (ignored, flattening to `""`). -/

/-- One block of an array-valued `content` field. -/
inductive ContentBlock : Type
  | text (s : String)
  | other
deriving DecidableEq

/-- The `content` field of a raw transcript entry. -/
inductive RawContent : Type
  | str (s : String)
  | blocks (bs : List ContentBlock)
  | other
deriving DecidableEq

/-- A raw transcript entry: a structured object with an optional `role`
string and a `content` value, or a non-object entry (skipped). -/
inductive RawEntry : Type
  | obj (role : Option String) (content : RawContent)
  | nonObj
deriving DecidableEq

/-- Parsed message role (only these two survive the filter). -/
inductive Role : Type
  | user
  | assistant
deriving DecidableEq

/-- A parsed message as pushed onto `messages` by the handler. -/
structure ParsedMessage : Type where
  role : Role
  content : String
deriving DecidableEq

instance : Inhabited ParsedMessage := ⟨⟨Role.user, ""⟩⟩

/-- Flatten a raw `content` value to a string: strings pass through,
arrays contribute the concatenation of their `text` blocks, anything
else flattens to the empty string. -/
def flattenContent : RawContent → String
  | RawContent.str s => s
  | RawContent.blocks bs =>
    bs.foldl (fun acc b => match b with
      | ContentBlock.text t => acc ++ t
      | ContentBlock.other => acc) ""
  | RawContent.other => ""

/-- The message-parsing loop of the `agent_end` handler: keep entries
that are objects whose role is exactly `user`/`assistant` and whose
flattened content trims to a non-empty string; store the trimmed
content. -/
def parseMessages (entries : List RawEntry) : List ParsedMessage :=
  entries.filterMap fun e =>
    match e with
    | RawEntry.nonObj => none
    | RawEntry.obj role content =>
      let r? : Option Role :=
        if role = some "user" then some Role.user
        else if role = some "assistant" then some Role.assistant
        else none
      match r? with
      | none => none
      | some r =>
        let c := jsTrim (flattenContent content)
        if c = "" then none else some ⟨r, c⟩

/-- Turn selection from the handler: the last assistant message, then
the nearest user message before it; abstain (`none`) when fewer than two
qualifying messages remain or either scan fails.  Returns the pair of
indices `(lastUserIdx, lastAssistantIdx)`. -/
def extractTurn (ms : List ParsedMessage) : Option (Nat × Nat) :=
  if ms.length < 2 then none
  else
    match findLastIdx (fun m => m.role = Role.assistant) ms with
    | none => none
    | some a =>
      match findLastIdx (fun m => m.role = Role.user) (ms.take a) with
      | none => none
      | some u => some (u, a)

/-- Role of the `k`-th qualifying message, if it exists. -/
def roleAt (ms : List ParsedMessage) (k : Nat) : Option Role :=
  (ms.get? k).map fun m => m.role

/-- The Turn at indices `(u, a)`: `a` is the chronologically last
assistant message and `u` the nearest user message preceding it. -/
def nearestPrecedingTurn (ms : List ParsedMessage) (u a : Nat) : Prop :=
  u < a ∧ roleAt ms a = some Role.assistant ∧
  (∀ k, a < k → roleAt ms k ≠ some Role.assistant) ∧
  roleAt ms u = some Role.user ∧
  (∀ k, u < k → k < a → roleAt ms k ≠ some Role.user)

/-- `messages.slice(Math.max(0, lastUserIdx - 2), lastUserIdx)` — the
Context Window.  (`Nat` subtraction truncates at zero exactly like
`Math.max(0, u - 2)`.) -/
def contextMessages (ms : List ParsedMessage) (u : Nat) : List ParsedMessage :=
  (ms.drop (u - 2)).take (u - (u - 2))

/-- `array.join(sep)` from JavaScript. -/
def joinSep (sep : String) : List String → String
  | [] => ""
  | [x] => x
  | x :: xs => x ++ sep ++ joinSep sep xs

/-- Role label used when rendering messages. -/
def roleLabel : Role → String
  | Role.user => "User"
  | Role.assistant => "Assistant"

/-- Context-window preview line: role label, first 100 characters of the
content, and an ellipsis (`m.content.slice(0, 100) + "..."`). -/
def previewLine (m : ParsedMessage) : String :=
  roleLabel m.role ++ ": " ++ String.mk (m.content.data.take 100) ++ "..."

/-- Full (untruncated) turn line. -/
def turnLine (m : ParsedMessage) : String :=
  roleLabel m.role ++ ": " ++ m.content

/-- The Capture Candidate the handler builds from the turn at indices
`(u, a)`: optional context block of truncated previews, the two turn
lines, then `stripMemoryTags`.  The indices are in range whenever
`extractTurn` produced them. -/
def buildCandidate (ms : List ParsedMessage) (u a : Nat) : String :=
  let ctx := contextMessages ms u
  let ctxPart :=
    if ctx.length > 0 then
      "(이전 맥락:\n" ++ joinSep "\n" (ctx.map previewLine) ++ ")\n\n"
    else ""
  let turnPart := joinSep "\n" ([ms.getD u default, ms.getD a default].map turnLine)
  stripMemoryTags (ctxPart ++ turnPart)

/-! ## Recall Injector rendering (`before_agent_start`) -/

/-- One recall result item (the fields the injector uses). -/
structure RecallItem : Type where
  id : String
  summary : String
  type : String

/-- `- [type] summary` rendering of one recall item. -/
def renderItem (it : RecallItem) : String :=
  "- [" ++ it.type ++ "] " ++ it.summary

/-- `result.items.map(...).join("\n")`. -/
def memoryContext (items : List RecallItem) : String :=
  joinSep "\n" (items.map renderItem)

/-- The `prependContext` string the recall hook returns. -/
def prependContext (items : List RecallItem) : String :=
  "<relevant-memories>\n관련 기억:\n" ++ memoryContext items ++ "\n</relevant-memories>"

/-! ## Maintenance Scheduler

Source (`agent_end` handler, end of the hook):
```
const cleanupIntervalMs = (cfg.cleanupIntervalHours ?? 0) * 60 * 60 * 1000;
try {
  const now = Date.now();
  if (cleanupIntervalMs > 0 && now - lastCleanupTime > cleanupIntervalMs) {
    ...
    const cleanupResult = await callMemu(cfg, "cleanup", ...);
    lastCleanupTime = now;
  }
} catch ...
```
Times are integers (milliseconds since the Unix epoch); the module-level
clock `lastCleanupTime` is initialized to `0` (epoch zero). -/

/-- `cleanupIntervalHours * 60 * 60 * 1000`. -/
def cleanupIntervalMs (hours : Int) : Int :=
  hours * 60 * 60 * 1000

/-- The gate condition of the periodic-cleanup block. -/
def cleanupDue (intervalMs last now : Int) : Bool :=
  intervalMs > 0 && now - last > intervalMs

/-- One evaluation of the gate at time `now`: returns the new clock
value and whether a cleanup Engine Command was issued.  On firing the
clock is stamped with `now` regardless of the cleanup call's outcome. -/
def schedStep (intervalMs last now : Int) : Int × Bool :=
  if cleanupDue intervalMs last now then (now, true) else (last, false)

/-- Run the gate over a sequence of eligible event times, threading the
clock; returns, per event, whether cleanup fired. -/
def schedRun (intervalMs : Int) (last : Int) : List Int → List Bool
  | [] => []
  | t :: ts =>
    let s := schedStep intervalMs last t
    s.2 :: schedRun intervalMs s.1 ts

/-! ## The `agent_end` handler control flow

`agentEndTrace` records the externally visible actions of one
`agent_end` invocation, in order: awaited engine calls (suspension
points), reads of the maintenance clock, and writes to it.  The early
`return` statements inside the capture `try` block (fewer than two
qualifying messages, no assistant, no preceding user, capture-filter
reject) leave the whole handler, so nothing after them — including the
periodic-cleanup block — runs. -/

/-- Externally visible actions of the `agent_end` handler. -/
inductive HandlerAction : Type
  | callEngine (command : String)
  | readClock
  | writeClock
deriving DecidableEq

/-- The periodic-cleanup block at the end of the handler: the gate
condition short-circuits, so the clock is read only when the interval
is positive; when due, the cleanup engine call is awaited and only then
is the clock written. -/
def cleanupBlockTrace (intervalMs last now : Int) : List HandlerAction :=
  if intervalMs > 0 then
    if now - last > intervalMs then
      [HandlerAction.readClock, HandlerAction.callEngine "cleanup", HandlerAction.writeClock]
    else [HandlerAction.readClock]
  else []

/-- The post-turn lifecycle event payload. -/
structure AgentEndEvent : Type where
  success : Bool
  messages : List RawEntry

/-- Action trace of one `agent_end` handler invocation, following the
source's control flow. -/
def agentEndTrace (intervalMs last now : Int) (ev : AgentEndEvent) : List HandlerAction :=
  if ev.success = false ∨ ev.messages = [] then []
  else
    let ms := parseMessages ev.messages
    match extractTurn ms with
    | none => []
    | some (u, a) =>
      if shouldCapture (buildCandidate ms u a) = false then []
      else HandlerAction.callEngine "store" :: cleanupBlockTrace intervalMs last now

/-- The sub-trace strictly between the (first) clock read and the
(first) subsequent clock write. -/
def betweenReadWrite (tr : List HandlerAction) : List HandlerAction :=
  ((tr.dropWhile (fun x => x ≠ HandlerAction.readClock)).drop 1).takeWhile
    (fun x => x ≠ HandlerAction.writeClock)

/-- Does an action await the engine (a suspension point)? -/
def isEngineCall : HandlerAction → Bool
  | HandlerAction.callEngine _ => true
  | _ => false

/-! ## Engine Gateway (`callMemu`)

The spawned process is external; its outcome is a `close` event with an
exit code (or `null` when killed by a signal) and the captured stdout
and stderr streams, or an `error` (spawn-failure) event.  `JSON.parse`
is modelled by a recognizer for the JSON grammar (ECMA-404, the grammar
`JSON.parse` accepts); the structure of the parsed value is returned
but never examined by the gateway itself. -/

/-- A JSON value (string/number payloads kept as raw token text; the
gateway hands the value to callers unexamined). -/
inductive Json : Type
  | null
  | bool (b : Bool)
  | num (lit : String)
  | str (lit : String)
  | arr (elems : List Json)
  | obj (fields : List (String × Json))

/-- JSON insignificant whitespace (note: a smaller set than JS `\s`). -/
def isJsonWs (c : Char) : Bool :=
  c = ' ' || c = '\t' || c = '\n' || c = '\r'

def skipJsonWs (l : List Char) : List Char :=
  l.dropWhile isJsonWs

def isDigitCh (c : Char) : Bool :=
  '0' ≤ c && c ≤ '9'

def isHexCh (c : Char) : Bool :=
  isDigitCh c || ('a' ≤ c && c ≤ 'f') || ('A' ≤ c && c ≤ 'F')

/-- Parse the body of a JSON string after the opening quote; returns the
raw body characters and the remainder after the closing quote. -/
def parseJStrBody : Nat → List Char → Option (List Char × List Char)
  | 0, _ => none
  | _ + 1, [] => none
  | fuel + 1, c :: rest =>
    if c = '"' then some ([], rest)
    else if c = '\\' then
      match rest with
      | [] => none
      | e :: rest2 =>
        if e = '"' || e = '\\' || e = '/' || e = 'b' || e = 'f' || e = 'n' || e = 'r' || e = 't' then
          (parseJStrBody fuel rest2).map fun s => (c :: e :: s.1, s.2)
        else if e = 'u' then
          match rest2 with
          | h1 :: h2 :: h3 :: h4 :: rest3 =>
            if isHexCh h1 && isHexCh h2 && isHexCh h3 && isHexCh h4 then
              (parseJStrBody fuel rest3).map fun s => (c :: e :: h1 :: h2 :: h3 :: h4 :: s.1, s.2)
            else none
          | _ => none
        else none
    else if c.val < 32 then none
    else (parseJStrBody fuel rest).map fun s => (c :: s.1, s.2)

/-- Parse a JSON number literal `-?(0|[1-9][0-9]*)(\.[0-9]+)?([eE][+-]?[0-9]+)?`;
returns the literal characters and the remainder. -/
def parseJNum (l : List Char) : Option (List Char × List Char) :=
  let sgn : List Char × List Char :=
    match l with
    | c :: r => if c = '-' then ([c], r) else ([], l)
    | [] => ([], l)
  match sgn.2 with
  | [] => none
  | c :: r =>
    let intPart? : Option (List Char × List Char) :=
      if c = '0' then some ([c], r)
      else if isDigitCh c then some (c :: r.takeWhile isDigitCh, r.dropWhile isDigitCh)
      else none
    match intPart? with
    | none => none
    | some (ip, afterInt) =>
      let fracStep : Option (List Char × List Char) :=
        match afterInt with
        | '.' :: r2 =>
          let ds := r2.takeWhile isDigitCh
          if ds = [] then none else some ('.' :: ds, r2.dropWhile isDigitCh)
        | _ => some ([], afterInt)
      match fracStep with
      | none => none
      | some (fp, afterFrac) =>
        let expStep : Option (List Char × List Char) :=
          match afterFrac with
          | e :: r3 =>
            if e = 'e' || e = 'E' then
              let (sg, r4) : List Char × List Char :=
                match r3 with
                | s :: r4 => if s = '+' || s = '-' then ([s], r4) else ([], r3)
                | [] => ([], r3)
              let ds := r4.takeWhile isDigitCh
              if ds = [] then none else some (e :: sg ++ ds, r4.dropWhile isDigitCh)
            else some ([], afterFrac)
          | [] => some ([], afterFrac)
        match expStep with
        | none => none
        | some (ep, afterExp) => some (sgn.1 ++ ip ++ fp ++ ep, afterExp)

/-- Parser mode: a whole value, the tail of an array (after `[` and at
least one element), or the members of an object (at or after the first
key). -/
inductive PMode : Type
  | value
  | elems
  | members

/-- The JSON parser, structurally recursive on fuel.  In `elems` mode
the result is always a `Json.arr`, in `members` mode a `Json.obj`. -/
def parseJ : Nat → PMode → List Char → Option (Json × List Char)
  | 0, _, _ => none
  | fuel + 1, PMode.value, l =>
    match skipJsonWs l with
    | [] => none
    | c :: rest =>
      if c = 'n' then
        match rest with
        | 'u' :: 'l' :: 'l' :: r => some (Json.null, r)
        | _ => none
      else if c = 't' then
        match rest with
        | 'r' :: 'u' :: 'e' :: r => some (Json.bool true, r)
        | _ => none
      else if c = 'f' then
        match rest with
        | 'a' :: 'l' :: 's' :: 'e' :: r => some (Json.bool false, r)
        | _ => none
      else if c = '"' then
        (parseJStrBody fuel rest).map fun s => (Json.str (String.mk s.1), s.2)
      else if c = '[' then
        match skipJsonWs rest with
        | ']' :: r => some (Json.arr [], r)
        | _ => parseJ fuel PMode.elems rest
      else if c = lbrace then
        match skipJsonWs rest with
        | d :: r => if d = rbrace then some (Json.obj [], r) else parseJ fuel PMode.members rest
        | [] => none
      else if c = '-' || isDigitCh c then
        (parseJNum (c :: rest)).map fun s => (Json.num (String.mk s.1), s.2)
      else none
  | fuel + 1, PMode.elems, l =>
    match parseJ fuel PMode.value l with
    | none => none
    | some (v, r) =>
      match skipJsonWs r with
      | ',' :: r2 =>
        match parseJ fuel PMode.elems r2 with
        | some (Json.arr vs, r3) => some (Json.arr (v :: vs), r3)
        | _ => none
      | ']' :: r2 => some (Json.arr [v], r2)
      | _ => none
  | fuel + 1, PMode.members, l =>
    match skipJsonWs l with
    | '"' :: r =>
      match parseJStrBody fuel r with
      | none => none
      | some (k, r2) =>
        match skipJsonWs r2 with
        | ':' :: r3 =>
          match parseJ fuel PMode.value r3 with
          | none => none
          | some (v, r4) =>
            match skipJsonWs r4 with
            | ',' :: r5 =>
              match parseJ fuel PMode.members r5 with
              | some (Json.obj ms, r6) => some (Json.obj ((String.mk k, v) :: ms), r6)
              | _ => none
            | d :: r5 =>
              if d = rbrace then some (Json.obj [(String.mk k, v)], r5) else none
            | [] => none
        | _ => none
    | _ => none

/-- `JSON.parse(stdout)` as a total recognizer: succeeds iff the whole
string is a single JSON value surrounded by insignificant whitespace. -/
def jsJsonParse (s : String) : Option Json :=
  match parseJ (s.data.length + 1) PMode.value s.data with
  | some (v, r) => if skipJsonWs r = [] then some v else none
  | none => none

/-- Outcome of the spawned engine process as observed by `callMemu`'s
event handlers: a `close` event with exit code (`none` models the JS
`null` code of a signal-killed process) and the accumulated stdout and
stderr text, or an `error` (spawn failure) event with a message. -/
inductive ProcOutcome : Type
  | closed (code : Option Int) (stdout : String) (stderr : String)
  | spawnFailed (errMessage : String)

/-- What `callMemu`'s promise resolves with. -/
inductive GatewayReply : Type
  | parsedResult (v : Json)
  | errorResult (e : String)

/-- The completion semantics of `callMemu`: non-zero (or null) exit code
resolves `\x7b error: stderr || generic \x7d`; zero exit parses stdout as
JSON, resolving the parsed value, or the parse-failure error; a spawn
failure resolves the error message. -/
def callMemu (o : ProcOutcome) : GatewayReply :=
  match o with
  | ProcOutcome.spawnFailed m => GatewayReply.errorResult m
  | ProcOutcome.closed code out err =>
    if code ≠ some 0 then
      GatewayReply.errorResult
        (if err ≠ "" then err
         else "Process exited with code " ++
           (match code with
            | some n => toString n
            | none => "null"))
    else
      match jsJsonParse out with
      | some v => GatewayReply.parsedResult v
      | none => GatewayReply.errorResult ("Failed to parse output: " ++ out)

/-! ## Credential Resolver (`resolveAnthropicToken`)

Source:
```
function resolveAnthropicToken(staticToken: string): string {
  try {
    const data = JSON.parse(readFileSync(authPath, "utf8"));
    const lastGood = data.lastGood?.anthropic;
    if (lastGood && data.profiles?.[lastGood]?.token) {
      return data.profiles[lastGood].token;
    }
    for (const [id, profile] of Object.entries(data.profiles ?? \x7b\x7d)) {
      if (id.startsWith("anthropic:") && (profile as any)?.token) {
        return (profile as any).token;
      }
    }
  } catch \x7b\x7d
  return staticToken;
}
```
The filesystem read and JSON parse are external; their observable
outcome is either `unreadable` (anything that throws: missing file,
malformed JSON — caught and swallowed) or a parsed store.  JavaScript
truthiness on the `lastGood` pointer and on `token` fields means an
absent **or empty** string behaves as "not there"; `Option String`
models the field and `truthyTok` the truthiness test.  `Object.entries`
iterates in storage order, modelled by the association-list order.
The function is total: no execution path throws past its boundary. -/

/-- One profile of the auth-profile store (only its `token` matters). -/
structure AuthProfile : Type where
  token : Option String
deriving DecidableEq

/-- JS truthiness of an optional string field: `some t` with `t ≠ ""`. -/
def truthyTok : Option String → Option String
  | some t => if t = "" then none else some t
  | none => none

/-- The parsed auth-profile store shape
`\x7b lastGood: \x7b anthropic? \x7d, profiles? \x7d`. -/
structure AuthData : Type where
  lastGoodAnthropic : Option String
  profiles : Option (List (String × AuthProfile))
deriving DecidableEq

/-- Observable outcome of reading and parsing the store file. -/
inductive ProfileStore : Type
  | unreadable
  | ok (d : AuthData)
deriving DecidableEq

/-- Property lookup `data.profiles?.[lastGood]` on the (unique-keyed)
object, in storage order. -/
def lookupProfile (ps : List (String × AuthProfile)) (id : String) : Option AuthProfile :=
  (ps.find? fun e => e.1 = id).map fun e => e.2

/-- The `lastGood` branch:
`lastGood && data.profiles?.[lastGood]?.token` and its returned token. -/
def viaLastGood (d : AuthData) : Option String :=
  match d.lastGoodAnthropic with
  | none => none
  | some lg =>
    if lg = "" then none
    else
      match d.profiles with
      | none => none
      | some ps =>
        match lookupProfile ps lg with
        | none => none
        | some p => truthyTok p.token

/-- The fallback scan over `Object.entries(data.profiles ?? \x7b\x7d)`:
first profile whose id starts with `anthropic:` and has a truthy token;
falling through to the static token. -/
def scanProfiles (staticToken : String) : List (String × AuthProfile) → String
  | [] => staticToken
  | (id, p) :: rest =>
    if jsStartsWith id "anthropic:" then
      match truthyTok p.token with
      | some t => t
      | none => scanProfiles staticToken rest
    else scanProfiles staticToken rest

/-- `resolveAnthropicToken` from the source, as a function of the
observable store outcome. -/
def resolveAnthropicToken (staticToken : String) (store : ProfileStore) : String :=
  match store with
  | ProfileStore.unreadable => staticToken
  | ProfileStore.ok d =>
    match viaLastGood d with
    | some t => t
    | none => scanProfiles staticToken (d.profiles.getD [])

/-! ## Lemmas: substring occurrence and leftmost-split -/

theorem isPrefixOf_ex {pat l : List Char} :
    pat.isPrefixOf l = true ↔ ∃ w, l = pat ++ w := by
  rw [List.isPrefixOf_iff_prefix]
  constructor
  · rintro ⟨w, hw⟩
    exact ⟨w, hw.symm⟩
  · rintro ⟨w, hw⟩
    exact ⟨w, hw.symm⟩

theorem isPrefixOf_append_self (pat w : List Char) :
    pat.isPrefixOf (pat ++ w) = true :=
  isPrefixOf_ex.mpr ⟨w, rfl⟩

theorem csub_iff {pat l : List Char} :
    containsSub pat l = true ↔ ∃ s t, l = s ++ pat ++ t := by
  induction l with
  | nil =>
    simp only [containsSub, List.isEmpty_iff]
    constructor
    · rintro rfl
      exact ⟨[], [], rfl⟩
    · rintro ⟨s, t, hst⟩
      rcases List.append_eq_nil.mp hst.symm with ⟨h1, h2⟩
      exact (List.append_eq_nil.mp h1).2
  | cons c rest ih =>
    simp only [containsSub, Bool.or_eq_true]
    constructor
    · rintro (h | h)
      · rcases isPrefixOf_ex.mp h with ⟨w, hw⟩
        exact ⟨[], w, by simpa using hw⟩
      · rcases ih.mp h with ⟨s, t, hst⟩
        exact ⟨c :: s, t, by simp [hst]⟩
    · rintro ⟨s, t, hst⟩
      cases s with
      | nil =>
        exact Or.inl (isPrefixOf_ex.mpr ⟨t, by simpa using hst⟩)
      | cons c' s' =>
        rcases List.cons_eq_cons.mp hst with ⟨rfl, h2⟩
        exact Or.inr (ih.mpr ⟨s', t, by simpa using h2⟩)

theorem csub_append_right {pat x y : List Char}
    (h : containsSub pat y = true) : containsSub pat (x ++ y) = true := by
  rcases csub_iff.mp h with ⟨s, t, rfl⟩
  exact csub_iff.mpr ⟨x ++ s, t, by simp⟩

theorem csub_of_suffix {pat y l : List Char} (hs : y <:+ l)
    (h : containsSub pat y = true) : containsSub pat l = true := by
  rcases hs with ⟨pre, rfl⟩
  exact csub_append_right h

theorem csub_split {pat x y : List Char}
    (h : containsSub pat (x ++ y) = true) :
    containsSub pat x = true ∨ containsSub pat y = true ∨
      ∃ p₁ p₂, pat = p₁ ++ p₂ ∧ p₁ ≠ [] ∧ p₂ ≠ [] ∧
        (∃ s, x = s ++ p₁) ∧ ∃ t, y = p₂ ++ t := by
  rcases csub_iff.mp h with ⟨s, t, hst⟩
  have h2 : s ++ (pat ++ t) = x ++ y := by
    rw [← List.append_assoc]
    exact hst.symm
  rcases List.append_eq_append_iff.mp h2 with ⟨a', ha1, ha2⟩ | ⟨c', hc1, hc2⟩
  · rcases List.append_eq_append_iff.mp ha2 with ⟨b', hb1, hb2⟩ | ⟨p₂, hp1, hp2⟩
    · left
      exact csub_iff.mpr ⟨s, b', by rw [ha1, hb1, List.append_assoc]⟩
    · cases a' with
      | nil =>
        right; left
        exact csub_iff.mpr ⟨[], t, by simpa [hp1] using hp2⟩
      | cons a0 as =>
        cases p₂ with
        | nil =>
          left
          exact csub_iff.mpr ⟨s, [], by simp [ha1, hp1]⟩
        | cons q0 qs =>
          right; right
          exact ⟨a0 :: as, q0 :: qs, hp1, by simp, by simp, ⟨s, ha1⟩, ⟨t, hp2⟩⟩
  · right; left
    exact csub_iff.mpr ⟨c', t, by rw [hc2, List.append_assoc]⟩

theorem getLast?_mem_of_append {x s p₁ : List Char} (hp : p₁ ≠ [])
    (hx : x = s ++ p₁) : ∃ c, x.getLast? = some c ∧ c ∈ p₁ := by
  have hsome : p₁.getLast?.isSome = true := List.getLast?_isSome.mpr hp
  rcases Option.isSome_iff_exists.mp hsome with ⟨c, hc⟩
  refine ⟨c, ?_, List.mem_of_mem_getLast? (Option.mem_def.mpr hc)⟩
  rw [hx, List.getLast?_append, hc]
  rfl

theorem head?_mem_of_append {y t p₂ : List Char} (hp : p₂ ≠ [])
    (hy : y = p₂ ++ t) : ∃ c, y.head? = some c ∧ c ∈ p₂ := by
  rcases List.exists_cons_of_ne_nil hp with ⟨c, cs, rfl⟩
  exact ⟨c, by simp [hy], List.mem_cons_self c cs⟩

/-- No occurrence in an append when there is none in either part and the
left part's last character does not occur in the pattern (which rules
out straddling occurrences). -/
theorem no_csub_append_left {pat x y : List Char}
    (hx : containsSub pat x = false) (hy : containsSub pat y = false)
    (hc : ∀ c, x.getLast? = some c → c ∉ pat) :
    containsSub pat (x ++ y) = false := by
  by_contra h
  rcases csub_split (Bool.not_eq_false _ |>.mp h) with h1 | h1 | ⟨p₁, p₂, hp, h1, h2, hs, ht⟩
  · exact absurd h1 (by simp [hx])
  · exact absurd h1 (by simp [hy])
  · rcases hs with ⟨s, hsx⟩
    rcases getLast?_mem_of_append h1 hsx with ⟨c, hlast, hcp⟩
    exact hc c hlast (hp ▸ List.mem_append.mpr (Or.inl hcp))

/-- Symmetric variant: the right part's first character does not occur
in the pattern. -/
theorem no_csub_append_right {pat x y : List Char}
    (hx : containsSub pat x = false) (hy : containsSub pat y = false)
    (hc : ∀ c, y.head? = some c → c ∉ pat) :
    containsSub pat (x ++ y) = false := by
  by_contra h
  rcases csub_split (Bool.not_eq_false _ |>.mp h) with h1 | h1 | ⟨p₁, p₂, hp, h1, h2, hs, ht⟩
  · exact absurd h1 (by simp [hx])
  · exact absurd h1 (by simp [hy])
  · rcases ht with ⟨t, hty⟩
    rcases head?_mem_of_append h2 hty with ⟨c, hhead, hcp⟩
    exact hc c hhead (hp ▸ List.mem_append.mpr (Or.inr hcp))

/-- `splitFirst` computes the leftmost split: prepending a block with no
occurrence (and whose last character cannot start a straddle) to
`pat ++ t` splits exactly there. -/
theorem splitFirst_exact {pat : List Char} (hne : pat ≠ []) :
    ∀ (body t : List Char), containsSub pat body = false →
      (∀ c, body.getLast? = some c → c ∉ pat) →
      splitFirst pat (body ++ (pat ++ t)) = some (body, t) := by
  intro body
  induction body with
  | nil =>
    intro t _ _
    rcases List.exists_cons_of_ne_nil hne with ⟨p0, ps, rfl⟩
    show splitFirst (p0 :: ps) ((p0 :: ps) ++ t) = some ([], t)
    rw [List.cons_append, splitFirst]
    rw [← List.cons_append, isPrefixOf_append_self]
    simp [List.drop_left]
  | cons d body' ih =>
    intro t hb hc
    have hsplitb : pat.isPrefixOf (d :: body') = false ∧ containsSub pat body' = false := by
      have := hb
      rw [containsSub] at this
      exact Bool.or_eq_false_iff.mp this
    have hnp : pat.isPrefixOf ((d :: body') ++ (pat ++ t)) = false := by
      by_contra h
      rcases isPrefixOf_ex.mp (Bool.not_eq_false _ |>.mp h) with ⟨w, hw⟩
      rcases le_or_lt pat.length (d :: body').length with hle | hlt
      · have hpre : pat <+: (d :: body') := by
          have htake : ((d :: body') ++ (pat ++ t)).take pat.length = (d :: body').take pat.length :=
            List.take_append_of_le_length hle
          have htake2 : ((d :: body') ++ (pat ++ t)).take pat.length = pat := by
            rw [hw]
            simp [List.take_append_of_le_length (le_refl pat.length)]
          rw [htake2] at htake
          exact htake ▸ List.take_prefix _ _
        have : pat.isPrefixOf (d :: body') = true := List.isPrefixOf_iff_prefix.mpr hpre
        simp [this] at hsplitb
      · -- pat longer than d :: body': then d :: body' is a prefix of pat,
        -- so the last character of d :: body' occurs in pat
        have hpre : (d :: body') <+: pat := by
          have htake : ((d :: body') ++ (pat ++ t)).take (d :: body').length = d :: body' := by
            simp [List.take_append_of_le_length (le_refl (d :: body').length)]
          have htake2 : (pat ++ w).take (d :: body').length = pat.take (d :: body').length :=
            List.take_append_of_le_length (Nat.le_of_lt hlt)
          rw [hw] at htake
          rw [htake2] at htake
          exact htake ▸ List.take_prefix _ _
        rcases hpre with ⟨rest, hrest⟩
        rcases Option.isSome_iff_exists.mp
            (List.getLast?_isSome.mpr (by simp : (d :: body') ≠ [])) with ⟨c, hlast⟩
        have hcmem : c ∈ d :: body' := List.mem_of_mem_getLast? (Option.mem_def.mpr hlast)
        have : c ∈ pat := by
          rw [← hrest]
          exact List.mem_append.mpr (Or.inl hcmem)
        exact hc c hlast this
    rw [List.cons_append, splitFirst]
    rw [← List.cons_append, hnp]
    simp only [Bool.false_eq_true, if_false]
    have hc' : ∀ c, body'.getLast? = some c → c ∉ pat := by
      intro c hcl
      have hbody' : body' ≠ [] := by
        intro h0
        rw [h0] at hcl
        simp at hcl
      apply hc c
      have : (d :: body').getLast? = body'.getLast? := by
        have : ([d] ++ body').getLast? = body'.getLast?.or [d].getLast? := List.getLast?_append
        rw [hcl] at this
        simpa [hcl] using this
      rw [this, hcl]
    rw [ih t hsplitb.2 hc']

/-! ## Lemmas: trimming and the strip scanner -/

theorem dropWhile_dropWhile (p : Char → Bool) (l : List Char) :
    (l.dropWhile p).dropWhile p = l.dropWhile p := by
  induction l with
  | nil => rfl
  | cons c rest ih =>
    by_cases h : p c
    · simp [List.dropWhile_cons, h, ih]
    · simp [List.dropWhile_cons, h]

theorem trimList_dropWhile (l : List Char) :
    trimList (l.dropWhile isJsWs) = trimList l := by
  simp [trimList, dropWhile_dropWhile]

theorem dropWhile_eq_self_of_pre {p : Char → Bool} {x l : List Char}
    (hl : l.dropWhile p = l) (hx : x <+: l) : x.dropWhile p = x := by
  cases x with
  | nil => rfl
  | cons c rest =>
    rcases hx with ⟨w, hw⟩
    have hc : p c = false := by
      rcases hl' : l with _ | ⟨d, ds⟩
      · rw [hl'] at hw
        exact absurd hw (by simp)
      · have hd : d = c := by
          rw [hl'] at hw
          exact (List.cons_eq_cons.mp hw.symm).1
        rw [hl'] at hl
        by_contra hpc
        rw [List.dropWhile_cons, hd] at hl
        simp only [Bool.not_eq_false] at hpc
        rw [if_pos hpc] at hl
        have : (List.dropWhile p ds).length = ds.length + 1 := by rw [hl]; rfl
        have hle : (List.dropWhile p ds).length ≤ ds.length :=
          (@List.dropWhile_suffix _ ds p).length_le
        omega
    simp [List.dropWhile_cons, hc]

theorem trimList_idem (l : List Char) : trimList (trimList l) = trimList l := by
  have hr : (l.dropWhile isJsWs).dropWhile isJsWs = l.dropWhile isJsWs :=
    dropWhile_dropWhile isJsWs l
  have hXpre : dropTrailing isJsWs (l.dropWhile isJsWs) <+: l.dropWhile isJsWs := by
    have h2 := List.reverse_prefix.mpr
      (@List.dropWhile_suffix Char ((l.dropWhile isJsWs).reverse) isJsWs)
    rw [List.reverse_reverse] at h2
    exact h2
  have h1 : (dropTrailing isJsWs (l.dropWhile isJsWs)).dropWhile isJsWs =
      dropTrailing isJsWs (l.dropWhile isJsWs) :=
    dropWhile_eq_self_of_pre hr hXpre
  have hdd : dropTrailing isJsWs (dropTrailing isJsWs (l.dropWhile isJsWs)) =
      dropTrailing isJsWs (l.dropWhile isJsWs) := by
    unfold dropTrailing
    rw [List.reverse_reverse, dropWhile_dropWhile]
  show dropTrailing isJsWs ((dropTrailing isJsWs (l.dropWhile isJsWs)).dropWhile isJsWs) =
    dropTrailing isJsWs (l.dropWhile isJsWs)
  rw [h1, hdd]

theorem stripCore_no_open :
    ∀ (fuel : Nat) (l : List Char), containsSub openTag l = false →
      stripCore fuel l = l := by
  intro fuel l
  induction l generalizing fuel with
  | nil => cases fuel <;> intro _ <;> rfl
  | cons c rest ih =>
    intro h
    have hparts : openTag.isPrefixOf (c :: rest) = false ∧ containsSub openTag rest = false := by
      rw [containsSub] at h
      exact Bool.or_eq_false_iff.mp h
    cases fuel with
    | zero => rfl
    | succ f =>
      rw [stripCore, hparts.1]
      simp only [Bool.false_eq_true, if_false]
      rw [ih f hparts.2]

theorem stripCore_block (fuel : Nat) (body t : List Char)
    (hb : containsSub closeTag body = false)
    (hlast : ∀ c, body.getLast? = some c → c ∉ closeTag) :
    stripCore (fuel + 1) (openTag ++ (body ++ (closeTag ++ t))) =
      stripCore fuel (t.dropWhile isJsWs) := by
  have hcons : openTag ++ (body ++ (closeTag ++ t)) =
      '<' :: ("relevant-memories>".data ++ (body ++ (closeTag ++ t))) := rfl
  rw [hcons, stripCore, ← hcons, isPrefixOf_append_self]
  simp only [if_true]
  rw [List.drop_left, splitFirst_exact (by decide : closeTag ≠ []) body t hb hlast]

/-- A string with no open marker strips to its trim. -/
theorem stripMemoryTags_no_open {s : String}
    (h : containsSub openTag s.data = false) : stripMemoryTags s = jsTrim s := by
  rw [stripMemoryTags, stripCore_no_open _ _ h]
  rfl

/-! ## Lemmas: occurrences of non-whitespace patterns survive trimming -/

theorem dropWhile_append_pattern {pat s t : List Char}
    (hne : pat ≠ []) (hws : ∀ c ∈ pat, isJsWs c = false) :
    ∃ s2, (s ++ (pat ++ t)).dropWhile isJsWs = s2 ++ (pat ++ t) := by
  induction s with
  | nil =>
    rcases List.exists_cons_of_ne_nil hne with ⟨p0, ps, rfl⟩
    refine ⟨[], ?_⟩
    rw [List.nil_append, List.cons_append, List.dropWhile_cons]
    rw [hws p0 (List.mem_cons_self _ _)]
    simp
  | cons c cs ih =>
    by_cases h : isJsWs c
    · rcases ih with ⟨s2, hs2⟩
      exact ⟨s2, by rw [List.cons_append, List.dropWhile_cons, h]; simpa using hs2⟩
    · exact ⟨c :: cs, by rw [List.cons_append, List.dropWhile_cons,
        (Bool.not_eq_true _).mp h]; simp⟩

theorem csub_trimList {pat l : List Char}
    (hne : pat ≠ []) (hws : ∀ c ∈ pat, isJsWs c = false)
    (h : containsSub pat l = true) : containsSub pat (trimList l) = true := by
  rcases csub_iff.mp h with ⟨s, t, rfl⟩
  rw [trimList]
  have hassoc : s ++ pat ++ t = s ++ (pat ++ t) := List.append_assoc s pat t
  rw [hassoc]
  rcases dropWhile_append_pattern hne hws with ⟨s2, hs2⟩
  rw [hs2, dropTrailing]
  have hrev : (s2 ++ (pat ++ t)).reverse = t.reverse ++ (pat.reverse ++ s2.reverse) := by
    simp [List.reverse_append]
  rw [hrev]
  have hne' : pat.reverse ≠ [] := by simpa using hne
  have hws' : ∀ c ∈ pat.reverse, isJsWs c = false := by
    intro c hcm
    exact hws c (List.mem_reverse.mp hcm)
  rcases dropWhile_append_pattern hne' hws' with ⟨t2, ht2⟩
  rw [ht2]
  apply csub_iff.mpr
  exact ⟨s2, t2.reverse, by simp [List.reverse_append]⟩

/-! ## Lemmas: the rendered recall block contains no close marker -/

theorem no_close_in_renderItem {it : RecallItem}
    (hty : containsSub closeTag it.type.data = false)
    (hsum : containsSub closeTag it.summary.data = false) :
    containsSub closeTag (renderItem it).data = false := by
  have hdata : (renderItem it).data =
      ("- [".data ++ it.type.data) ++ ("] ".data ++ it.summary.data) := by
    show ((("- [" ++ it.type) ++ "] ") ++ it.summary).data = _
    simp [String.data_append, List.append_assoc]
  rw [hdata]
  apply no_csub_append_right
  · apply no_csub_append_left (by decide) hty
    intro c hc
    have : c = '[' := by
      have : ("- [".data : List Char).getLast? = some '[' := by decide
      rw [this] at hc
      exact (Option.some_inj.mp hc).symm
    rw [this]
    decide
  · apply no_csub_append_left (by decide) hsum
    intro c hc
    have : c = ' ' := by
      have : ("] ".data : List Char).getLast? = some ' ' := by decide
      rw [this] at hc
      exact (Option.some_inj.mp hc).symm
    rw [this]
    decide
  · intro c hc
    have : c = ']' := by
      have : (("] ".data ++ it.summary.data) : List Char).head? = some ']' := rfl
      rw [this] at hc
      exact (Option.some_inj.mp hc).symm
    rw [this]
    decide

theorem no_close_in_memoryContext (items : List RecallItem)
    (h : ∀ it ∈ items, containsSub closeTag it.type.data = false ∧
      containsSub closeTag it.summary.data = false) :
    containsSub closeTag (memoryContext items).data = false := by
  induction items with
  | nil => decide
  | cons it rest ih =>
    have hit := h it (List.mem_cons_self _ _)
    have hline := no_close_in_renderItem hit.1 hit.2
    cases rest with
    | nil =>
      show containsSub closeTag (joinSep "\n" [renderItem it]).data = false
      simpa [memoryContext, joinSep] using hline
    | cons it2 rest2 =>
      have hrest : containsSub closeTag (memoryContext (it2 :: rest2)).data = false :=
        ih fun x hx => h x (List.mem_cons_of_mem _ hx)
      show containsSub closeTag (joinSep "\n" (List.map renderItem (it :: it2 :: rest2))).data = false
      have hjoin : (joinSep "\n" (List.map renderItem (it :: it2 :: rest2))).data =
          (renderItem it).data ++ ((['\n'] : List Char) ++ (memoryContext (it2 :: rest2)).data) := by
        show ((renderItem it ++ "\n") ++ joinSep "\n" (List.map renderItem (it2 :: rest2))).data = _
        simp [String.data_append, List.append_assoc, memoryContext]
      rw [hjoin]
      apply no_csub_append_right hline
      · apply no_csub_append_left (by decide) hrest
        intro c hc
        have : c = '\n' := by
          have h0 : (['\n'] : List Char).getLast? = some '\n' := rfl
          rw [h0] at hc
          exact (Option.some_inj.mp hc).symm
        rw [this]
        decide
      · intro c hc
        have : c = '\n' := by
          have h0 : ((['\n'] : List Char) ++ (memoryContext (it2 :: rest2)).data).head? = some '\n' := rfl
          rw [h0] at hc
          exact (Option.some_inj.mp hc).symm
        rw [this]
        decide

/-- Stripping a string that is exactly one injected block followed by a
tail with no open marker yields the trimmed tail. -/
theorem stripMemoryTags_block (B : List Char) (t : String)
    (hb : containsSub closeTag B = false)
    (hlast : ∀ c, B.getLast? = some c → c ∉ closeTag)
    (ht1 : containsSub openTag t.data = false) :
    stripMemoryTags (String.mk (openTag ++ (B ++ (closeTag ++ t.data)))) = jsTrim t := by
  rw [stripMemoryTags]
  show String.mk (trimList (stripCore (openTag ++ (B ++ (closeTag ++ t.data))).length
    (openTag ++ (B ++ (closeTag ++ t.data))))) = _
  have hlen : (openTag ++ (B ++ (closeTag ++ t.data))).length =
      ("relevant-memories>".data ++ (B ++ (closeTag ++ t.data))).length + 1 := by
    rw [show openTag ++ (B ++ (closeTag ++ t.data)) =
      '<' :: ("relevant-memories>".data ++ (B ++ (closeTag ++ t.data))) from rfl]
    rw [List.length_cons]
  rw [hlen, stripCore_block _ B t.data hb hlast]
  have hdw : containsSub openTag (t.data.dropWhile isJsWs) = false := by
    by_contra h
    have h2 := csub_of_suffix (@List.dropWhile_suffix Char t.data isJsWs)
      (Bool.not_eq_false _ |>.mp h)
    rw [ht1] at h2
    exact absurd h2 (by simp)
  rw [stripCore_no_open _ _ hdw, trimList_dropWhile]
  rfl

/-- C10: Stripping undoes injection: for every non-empty list of recall
items whose `type` and `summary` fields contain neither the open nor the
close memory-markup marker, and every text `t` containing no markers,
applying `stripMemoryTags` to the rendered recall block
(`prependContext`) followed by `t` yields `t` with surrounding
whitespace trimmed. -/
theorem strip_undoes_injection (items : List RecallItem) (t : String)
    (_hne : items ≠ [])
    (hitems : ∀ it ∈ items,
      containsSub openTag it.type.data = false ∧ containsSub closeTag it.type.data = false ∧
      containsSub openTag it.summary.data = false ∧ containsSub closeTag it.summary.data = false)
    (ht1 : containsSub openTag t.data = false)
    (_ht2 : containsSub closeTag t.data = false) :
    stripMemoryTags (prependContext items ++ t) = jsTrim t := by
  have hmc : containsSub closeTag (memoryContext items).data = false :=
    no_close_in_memoryContext items fun it hit => ⟨(hitems it hit).2.1, (hitems it hit).2.2.2⟩
  have hdata : (prependContext items ++ t).data =
      openTag ++ (("\n관련 기억:\n".data ++ ((memoryContext items).data ++ ['\n'])) ++
        (closeTag ++ t.data)) := by
    show ((("<relevant-memories>\n관련 기억:\n" ++ memoryContext items) ++
      "\n</relevant-memories>") ++ t).data = _
    rw [String.data_append, String.data_append, String.data_append]
    rw [show ("<relevant-memories>\n관련 기억:\n".data : List Char) =
      openTag ++ "\n관련 기억:\n".data from rfl]
    rw [show ("\n</relevant-memories>".data : List Char) = ['\n'] ++ closeTag from rfl]
    simp [List.append_assoc]
  have hbody : containsSub closeTag
      ("\n관련 기억:\n".data ++ ((memoryContext items).data ++ ['\n'])) = false := by
    apply no_csub_append_left (by decide)
    · apply no_csub_append_right hmc (by decide)
      intro c hc
      have h0 : (((['\n'] : List Char)).head? : Option Char) = some '\n' := rfl
      rw [h0] at hc
      rw [(Option.some_inj.mp hc).symm]
      decide
    · intro c hc
      have h0 : (("\n관련 기억:\n".data : List Char)).getLast? = some '\n' := by decide
      rw [h0] at hc
      rw [(Option.some_inj.mp hc).symm]
      decide
  have hlast : ∀ c, ("\n관련 기억:\n".data ++ ((memoryContext items).data ++ ['\n'])).getLast? =
      some c → c ∉ closeTag := by
    intro c hc
    rw [List.getLast?_append, List.getLast?_append] at hc
    simp only [List.getLast?_singleton, Option.or] at hc
    rw [(Option.some_inj.mp hc).symm]
    decide
  have heq : prependContext items ++ t =
      String.mk (openTag ++ (("\n관련 기억:\n".data ++ ((memoryContext items).data ++ ['\n'])) ++
        (closeTag ++ t.data))) := congrArg String.mk hdata
  rw [heq, stripMemoryTags_block _ t hbody hlast ht1]

/-! ## Lemmas: the Capture Filter rejects noisy stripped text -/

theorem shouldCapture_false_of_noise {s : String}
    (h : noiseHit (stripMemoryTags s).data = true) : shouldCapture s = false := by
  simp only [shouldCapture]
  repeat' split
  all_goals rfl

theorem noiseHit_of_heartbeat {l : List Char}
    (h : containsSub "HEARTBEAT_OK".data l = true) : noiseHit l = true := by
  simp [noiseHit, h]

theorem noiseHit_of_enoent {l : List Char}
    (h : containsSub "ENOENT".data l = true) : noiseHit l = true := by
  simp [noiseHit, h]

/-- C2 (counterexample): `stripMemoryTags` is not idempotent.  One pass
over this input deletes the inner block and thereby splices the
surrounding fragments into a new complete marker block, which a second
pass deletes. -/
theorem stripMemoryTags_not_idempotent :
    stripMemoryTags (stripMemoryTags
      "<relevant-mem<relevant-memories>A</relevant-memories>ories>B</relevant-memories>") ≠
      stripMemoryTags
        "<relevant-mem<relevant-memories>A</relevant-memories>ories>B</relevant-memories>" := by
  decide

/-- C2 (amended): `stripMemoryTags` is idempotent on every text whose
single-pass output contains no open marker (in particular on any text
in which deleting blocks cannot splice a new marker together). -/
theorem stripMemoryTags_idempotent (x : String)
    (h : containsSub openTag (stripMemoryTags x).data = false) :
    stripMemoryTags (stripMemoryTags x) = stripMemoryTags x := by
  have h1 : stripMemoryTags (stripMemoryTags x) =
      String.mk (trimList ((stripMemoryTags x).data)) := by
    rw [stripMemoryTags, stripCore_no_open _ _ h]
  rw [h1]
  show String.mk (trimList (trimList (stripCore x.data.length x.data))) = stripMemoryTags x
  rw [trimList_idem]
  rfl

/-- C2 witness for the amended idempotence theorem at a concrete input. -/
theorem stripMemoryTags_idempotent_witness :
    containsSub openTag (stripMemoryTags "  plain text with no markers  ").data = false ∧
      stripMemoryTags (stripMemoryTags "  plain text with no markers  ") =
        stripMemoryTags "  plain text with no markers  " :=
  ⟨by decide, stripMemoryTags_idempotent _ (by decide)⟩

/-- C5 (amended): the Capture Filter rejects the empty string, every
5-character string, the string `\x7b"a":1\x7d`, every 60-character
heartbeat probe/acknowledgment exchange (marker-free, as such an
exchange is), and every 200-character string that still contains
`ENOENT` after markup-stripping (the original claim quantified over all
200-character strings containing `ENOENT`; an occurrence inside a
stripped markup block does not reach the noise check — see the
counterexample). -/
theorem capture_filter_rejects :
    shouldCapture "" = false ∧
    (∀ s : String, s.data.length = 5 → shouldCapture s = false) ∧
    shouldCapture "\x7b\"a\":1\x7d" = false ∧
    (∀ probe ack : String,
      containsSub "HEARTBEAT".data probe.data = true →
      containsSub "HEARTBEAT_OK".data ack.data = true →
      containsSub openTag (heartbeatExchange probe ack).data = false →
      (heartbeatExchange probe ack).data.length = 60 →
      shouldCapture (heartbeatExchange probe ack) = false) ∧
    (∀ s : String, s.data.length = 200 →
      containsSub "ENOENT".data (stripMemoryTags s).data = true →
      shouldCapture s = false) := by
  refine ⟨by decide, ?_, by decide, ?_, ?_⟩
  · intro s h
    have h20 : s.data.length < 20 := by omega
    simp only [shouldCapture, if_pos h20]
  · intro probe ack _hprobe hack hopen _hlen
    apply shouldCapture_false_of_noise
    apply noiseHit_of_heartbeat
    have hs : containsSub "HEARTBEAT_OK".data (heartbeatExchange probe ack).data = true := by
      have hd : (heartbeatExchange probe ack).data =
          ((("User: " ++ probe) ++ "\nAssistant: ").data) ++ ack.data := by
        show ((("User: " ++ probe) ++ "\nAssistant: ") ++ ack).data = _
        rw [String.data_append]
      rw [hd]
      exact csub_append_right hack
    rw [stripMemoryTags_no_open hopen]
    exact csub_trimList (by decide) (by decide) hs
  · intro s _hlen h
    exact shouldCapture_false_of_noise (noiseHit_of_enoent h)

/-- C5 (counterexample): a 200-character string containing `ENOENT` that
the Capture Filter admits — the `ENOENT` occurrence sits inside a
`<relevant-memories>` block, which is stripped before the noise check. -/
theorem capture_filter_enoent_counterexample :
    ("<relevant-memories>ENOENT</relevant-memories>User: We talked about the hiking trail by the lake and agreed to pack warm clothes for the sunrise walk next Saturday morning with good friends and my dog.").data.length = 200 ∧
    containsSub "ENOENT".data ("<relevant-memories>ENOENT</relevant-memories>User: We talked about the hiking trail by the lake and agreed to pack warm clothes for the sunrise walk next Saturday morning with good friends and my dog.").data = true ∧
    shouldCapture "<relevant-memories>ENOENT</relevant-memories>User: We talked about the hiking trail by the lake and agreed to pack warm clothes for the sunrise walk next Saturday morning with good friends and my dog." = true := by
  refine ⟨by decide, by decide, by decide⟩

/-- C5 witness: the quantified rejection clauses evaluated at concrete
inputs (a 5-character string, an exactly-60-character heartbeat
exchange, and a 200-character marker-free string containing `ENOENT`). -/
theorem capture_filter_rejects_witness :
    shouldCapture "abcde" = false ∧
    shouldCapture (heartbeatExchange "HEARTBEAT now please" "HEARTBEAT_OK received.") = false ∧
    shouldCapture "User: the deploy script kept printing ENOENT when reading the config file, so we decided to check the path settings together tomorrow morning and rewrite the loader carefully before the next releases." = false :=
  ⟨capture_filter_rejects.2.1 "abcde" (by decide),
   capture_filter_rejects.2.2.2.1 "HEARTBEAT now please" "HEARTBEAT_OK received."
     (by decide) (by decide) (by decide) (by decide),
   capture_filter_rejects.2.2.2.2
     "User: the deploy script kept printing ENOENT when reading the config file, so we decided to check the path settings together tomorrow morning and rewrite the loader carefully before the next releases."
     (by decide) (by decide)⟩

/-- C10 witness: injection-then-strip at a concrete recall item and
tail text. -/
theorem strip_undoes_injection_witness :
    stripMemoryTags (prependContext [⟨"id1", "likes hiking at dawn", "preference"⟩] ++
      "  User: hello there  ") = jsTrim "  User: hello there  " :=
  strip_undoes_injection [⟨"id1", "likes hiking at dawn", "preference"⟩]
    "  User: hello there  " (List.cons_ne_nil _ _) (by decide) (by decide) (by decide)

/-- C1 (counterexample): with a 1-hour interval and the epoch-zero
initial clock, an event at exactly one hour (3 600 000 ms) does not
reach `due`: the gate condition is strict, so "at or after H hours"
fails at the boundary. -/
theorem maintenance_gate_boundary_counterexample :
    schedRun (cleanupIntervalMs 1) 0 [3600000] = [false] ∧
      schedRun (cleanupIntervalMs 1) 0 [3600000] ≠ [true] := by
  refine ⟨by decide, by decide⟩

/-- C1 (amended): with interval 0 the gate never fires, regardless of
elapsed time; with a positive interval of `hrs` hours and no prior
cleanup (clock at epoch zero), the gate fires exactly at the first
eligible event strictly later than `hrs` hours, and at no event at or
before that bound. -/
theorem maintenance_gate_behavior :
    (∀ ts : List Int, schedRun (cleanupIntervalMs 0) 0 ts = List.replicate ts.length false) ∧
    (∀ hrs : Int, 0 < hrs → ∀ (ts1 : List Int) (t : Int) (ts2 : List Int),
      (∀ x ∈ ts1, x ≤ cleanupIntervalMs hrs) → cleanupIntervalMs hrs < t →
      schedRun (cleanupIntervalMs hrs) 0 (ts1 ++ t :: ts2) =
        List.replicate ts1.length false ++ true :: schedRun (cleanupIntervalMs hrs) t ts2) := by
  constructor
  · intro ts
    have h0 : cleanupIntervalMs 0 = 0 := by decide
    rw [h0]
    induction ts with
    | nil => rfl
    | cons t ts ih =>
      have hdue : cleanupDue 0 0 t = false := by
        simp [cleanupDue]
      simp [schedRun, schedStep, hdue, ih, List.replicate_succ]
  · intro hrs hpos ts1 t ts2 hle hgt
    have hIpos : (0 : Int) < cleanupIntervalMs hrs := by
      unfold cleanupIntervalMs
      omega
    induction ts1 with
    | nil =>
      have hdue : cleanupDue (cleanupIntervalMs hrs) 0 t = true := by
        simp [cleanupDue, hIpos]
        omega
      simp [schedRun, schedStep, hdue]
    | cons x ts1' ih =>
      have hx := hle x (List.mem_cons_self _ _)
      have hnd : cleanupDue (cleanupIntervalMs hrs) 0 x = false := by
        simp [cleanupDue]
        intro _
        omega
      have ih2 := ih fun y hy => hle y (List.mem_cons_of_mem _ hy)
      simp [schedRun, schedStep, hnd, List.replicate_succ, ih2]

/-- C1 witness: the amended gate behaviour at concrete inputs: with
interval 0 nothing fires, and with a 1-hour interval the first event
past one hour fires after an earlier pre-deadline event did not. -/
theorem maintenance_gate_behavior_witness :
    schedRun (cleanupIntervalMs 0) 0 [5, 99999999999] = List.replicate 2 false ∧
    schedRun (cleanupIntervalMs 1) 0 [100, 3600001] =
      List.replicate 1 false ++ true :: schedRun (cleanupIntervalMs 1) 3600001 [] :=
  ⟨maintenance_gate_behavior.1 [5, 99999999999],
   maintenance_gate_behavior.2 1 (by decide) [100] 3600001 [] (by decide) (by decide)⟩

/-- C3 (counterexample): the parse-failure message is capitalized
`Failed to parse output: …`, so the result on stdout `"not json"` is not
the claimed `\x7b error: "failed to parse output: not json" \x7d`. -/
theorem gateway_parse_error_counterexample :
    callMemu (ProcOutcome.closed (some 0) "not json" "") =
      GatewayReply.errorResult "Failed to parse output: not json" ∧
    callMemu (ProcOutcome.closed (some 0) "not json" "") ≠
      GatewayReply.errorResult "failed to parse output: not json" := by
  refine ⟨rfl, ?_⟩
  intro h
  rw [show callMemu (ProcOutcome.closed (some 0) "not json" "") =
    GatewayReply.errorResult "Failed to parse output: not json" from rfl] at h
  injection h with h2
  exact absurd h2 (by decide)

/-- C3 (amended): the gateway normalizes every failure to an error
result: non-zero (or null) exit code yields the captured stderr or the
generic exited-with-code message; exit 0 with unparsable stdout yields
exactly `Failed to parse output: <raw output>` (capitalized); a spawn
failure yields the spawn error message. -/
theorem gateway_error_normalization :
    (∀ (code : Option Int) (out err : String), code ≠ some 0 →
      callMemu (ProcOutcome.closed code out err) =
        GatewayReply.errorResult (if err ≠ "" then err
          else "Process exited with code " ++
            (match code with
             | some n => toString n
             | none => "null"))) ∧
    (∀ (out err : String), jsJsonParse out = none →
      callMemu (ProcOutcome.closed (some 0) out err) =
        GatewayReply.errorResult ("Failed to parse output: " ++ out)) ∧
    (∀ m : String, callMemu (ProcOutcome.spawnFailed m) = GatewayReply.errorResult m) := by
  refine ⟨?_, ?_, fun m => rfl⟩
  · intro code out err h
    simp [callMemu, h]
  · intro out err h
    simp [callMemu, h]

/-- C3 witness: exit 1 with stderr `boom` resolves `boom`; exit 0 with
stdout `not json` resolves the (capitalized) parse-failure message; a
spawn failure resolves its message. -/
theorem gateway_error_normalization_witness :
    callMemu (ProcOutcome.closed (some 1) "" "boom") = GatewayReply.errorResult "boom" ∧
    callMemu (ProcOutcome.closed (some 0) "not json" "") =
      GatewayReply.errorResult "Failed to parse output: not json" ∧
    callMemu (ProcOutcome.spawnFailed "spawn python3 ENOENT") =
      GatewayReply.errorResult "spawn python3 ENOENT" := by
  refine ⟨?_, ?_, gateway_error_normalization.2.2 "spawn python3 ENOENT"⟩
  · have h := gateway_error_normalization.1 (some 1) "" "boom" (by decide)
    simpa using h
  · exact gateway_error_normalization.2.1 "not json" "" (by rfl)

/-- C8 (code bug): a capture-eligible `agent_end` event (success, two
qualifying messages) whose candidate the Capture Filter rejects returns
from the handler before the periodic-cleanup block: the trace contains
no clock read at all, even though the gate — had it been reached — was
due and would have issued a cleanup command. -/
theorem agent_end_skips_gate_on_reject :
    agentEndTrace 3600000 0 10000000000
      ⟨true, [RawEntry.obj (some "user") (RawContent.str "hi"),
              RawEntry.obj (some "assistant") (RawContent.str "ok")]⟩ = [] ∧
    cleanupBlockTrace 3600000 0 10000000000 =
      [HandlerAction.readClock, HandlerAction.callEngine "cleanup", HandlerAction.writeClock] := by
  refine ⟨by decide, by decide⟩

/-- C9 (counterexample): on a fired maintenance pass, the handler trace
is `store, readClock, await cleanup, writeClock`: an awaited engine call
sits strictly between the clock read and the clock write, so the
read-then-write is not a single synchronous segment. -/
theorem clock_await_between_read_write :
    agentEndTrace 3600000 0 7200000
      ⟨true, [RawEntry.obj (some "user")
                (RawContent.str "I prefer working late at night, usually around two or three in the morning."),
              RawEntry.obj (some "assistant")
                (RawContent.str "Understood, you like working late at night and I will keep that in mind.")]⟩ =
      [HandlerAction.callEngine "store", HandlerAction.readClock,
       HandlerAction.callEngine "cleanup", HandlerAction.writeClock] ∧
    (betweenReadWrite (agentEndTrace 3600000 0 7200000
      ⟨true, [RawEntry.obj (some "user")
                (RawContent.str "I prefer working late at night, usually around two or three in the morning."),
              RawEntry.obj (some "assistant")
                (RawContent.str "Understood, you like working late at night and I will keep that in mind.")]⟩)).any
      isEngineCall = true := by
  refine ⟨by decide, by decide⟩

/-- C9 (amended): within each post-turn handler the clock is read and
later written in a fixed order, but with exactly the awaited cleanup
engine call — a suspension point — strictly between the read and the
write: whenever a trace writes the clock, the segment between the read
and the write is precisely the cleanup call. -/
theorem clock_read_write_separated (intervalMs last now : Int) (ev : AgentEndEvent) :
    HandlerAction.writeClock ∈ agentEndTrace intervalMs last now ev →
      betweenReadWrite (agentEndTrace intervalMs last now ev) =
        [HandlerAction.callEngine "cleanup"] := by
  simp only [agentEndTrace]
  split
  · intro h
    simp at h
  · split
    · intro h
      simp at h
    · split
      · intro h
        simp at h
      · unfold cleanupBlockTrace
        split
        · split
          · intro _
            decide
          · intro h
            exact absurd h (by decide)
        · intro h
          exact absurd h (by decide)

/-- C9 witness: the separated-read-write characterization evaluated on
the concrete fired trace. -/
theorem clock_read_write_separated_witness :
    betweenReadWrite (agentEndTrace 3600000 0 7200000
      ⟨true, [RawEntry.obj (some "user")
                (RawContent.str "I prefer working late at night, usually around two or three in the morning."),
              RawEntry.obj (some "assistant")
                (RawContent.str "Understood, you like working late at night and I will keep that in mind.")]⟩) =
      [HandlerAction.callEngine "cleanup"] :=
  clock_read_write_separated 3600000 0 7200000 _ (by decide)

/-! ## Lemmas: findLastIdx and the Turn Extractor -/

theorem get?_some_lt {α : Type} {l : List α} {n : Nat} {a : α}
    (h : l.get? n = some a) : n < l.length := by
  by_contra h2
  rw [List.get?_eq_none.mpr (Nat.le_of_not_lt h2)] at h
  exact Option.noConfusion h

theorem findLastIdx_none {α : Type} {p : α → Bool} {l : List α}
    (h : findLastIdx p l = none) : ∀ k x, l.get? k = some x → p x = false := by
  induction l with
  | nil =>
    intro k x hk
    simp at hk
  | cons c rest ih =>
    intro k x hk
    cases hr : findLastIdx p rest with
    | some i =>
      rw [findLastIdx, hr] at h
      exact absurd h (by simp)
    | none =>
      rw [findLastIdx, hr] at h
      have hpc : p c = false := by
        cases hbv : p c with
        | false => rfl
        | true =>
          rw [hbv, if_pos rfl] at h
          exact absurd h (by simp)
      cases k with
      | zero =>
        rw [List.get?_cons_zero] at hk
        rw [← Option.some_inj.mp hk]
        exact hpc
      | succ k' =>
        rw [List.get?_cons_succ] at hk
        exact ih hr k' x hk

theorem findLastIdx_some {α : Type} {p : α → Bool} :
    ∀ {l : List α} {i : Nat}, findLastIdx p l = some i →
      (∃ x, l.get? i = some x ∧ p x = true) ∧
      ∀ k x, i < k → l.get? k = some x → p x = false := by
  intro l
  induction l with
  | nil =>
    intro i h
    exact absurd h (by simp [findLastIdx])
  | cons c rest ih =>
    intro i h
    cases hr : findLastIdx p rest with
    | some j =>
      rw [findLastIdx, hr] at h
      have hi : i = j + 1 := (Option.some_inj.mp h).symm
      subst hi
      obtain ⟨⟨x, hx1, hx2⟩, hafter⟩ := ih hr
      refine ⟨⟨x, by simpa using hx1, hx2⟩, ?_⟩
      intro k y hk hky
      cases k with
      | zero => omega
      | succ k' =>
        rw [List.get?_cons_succ] at hky
        exact hafter k' y (by omega) hky
    | none =>
      rw [findLastIdx, hr] at h
      cases hbv : p c with
      | false =>
        rw [hbv] at h
        exact absurd h (by simp)
      | true =>
        rw [hbv, if_pos rfl] at h
        have hi : i = 0 := (Option.some_inj.mp h).symm
        subst hi
        refine ⟨⟨c, rfl, hbv⟩, ?_⟩
        intro k y hk hky
        cases k with
        | zero => omega
        | succ k' =>
          rw [List.get?_cons_succ] at hky
          exact findLastIdx_none hr k' y hky

theorem findLastIdx_isSome {α : Type} {p : α → Bool} {l : List α} {k : Nat} {x : α}
    (hk : l.get? k = some x) (hx : p x = true) :
    ∃ i, findLastIdx p l = some i := by
  cases h : findLastIdx p l with
  | some i => exact ⟨i, rfl⟩
  | none =>
    rw [findLastIdx_none h k x hk] at hx
    exact absurd hx (by simp)

theorem roleAt_some {ms : List ParsedMessage} {k : Nat} {r : Role} :
    roleAt ms k = some r ↔ ∃ m, ms.get? k = some m ∧ m.role = r := by
  simp [roleAt, Option.map_eq_some']

theorem extract_spec (ms : List ParsedMessage) :
    ((∃ i j, i < j ∧ roleAt ms i = some Role.user ∧ roleAt ms j = some Role.assistant) →
      ∃ u a, extractTurn ms = some (u, a) ∧ nearestPrecedingTurn ms u a) ∧
    (ms.length < 2 → extractTurn ms = none) ∧
    ((∀ k, roleAt ms k ≠ some Role.assistant) → extractTurn ms = none) ∧
    ((∀ k, roleAt ms k ≠ some Role.user) → extractTurn ms = none) := by
  refine ⟨?_, ?_, ?_, ?_⟩
  · rintro ⟨i, j, hij, hui, haj⟩
    rcases roleAt_some.mp hui with ⟨mu, hmu, hmur⟩
    rcases roleAt_some.mp haj with ⟨ma, hma, hmar⟩
    have hjlen : j < ms.length := get?_some_lt hma
    have hlen2 : ¬ ms.length < 2 := by omega
    have haEx : ∃ a, findLastIdx (fun m => decide (m.role = Role.assistant)) ms = some a :=
      findLastIdx_isSome hma (by simp [hmar])
    rcases haEx with ⟨a, ha⟩
    obtain ⟨⟨xa, hxa1, hxa2⟩, hafterA⟩ := findLastIdx_some ha
    have hja : j ≤ a := by
      by_contra hc
      have h2 := hafterA j ma (by omega) hma
      rw [hmar] at h2
      simp at h2
    have hia : i < a := by omega
    have htake : (ms.take a).get? i = some mu := by
      rw [List.get?_take hia]
      exact hmu
    have huEx : ∃ u, findLastIdx (fun m => decide (m.role = Role.user)) (ms.take a) = some u :=
      findLastIdx_isSome htake (by simp [hmur])
    rcases huEx with ⟨u, hu⟩
    obtain ⟨⟨xu, hxu1, hxu2⟩, hafterU⟩ := findLastIdx_some hu
    have hulen : u < (ms.take a).length := get?_some_lt hxu1
    have hua : u < a := by
      rw [List.length_take] at hulen
      omega
    refine ⟨u, a, ?_, hua, ?_, ?_, ?_, ?_⟩
    · simp only [extractTurn, if_neg hlen2, ha, hu]
    · exact roleAt_some.mpr ⟨xa, hxa1, by simpa using hxa2⟩
    · intro k hk hcontra
      rcases roleAt_some.mp hcontra with ⟨m, hm1, hm2⟩
      have h2 := hafterA k m hk hm1
      rw [hm2] at h2
      simp at h2
    · have hg : ms.get? u = some xu := by
        rw [← List.get?_take hua]
        exact hxu1
      exact roleAt_some.mpr ⟨xu, hg, by simpa using hxu2⟩
    · intro k hk1 hk2 hcontra
      rcases roleAt_some.mp hcontra with ⟨m, hm1, hm2⟩
      have hkt : (ms.take a).get? k = some m := by
        rw [List.get?_take hk2]
        exact hm1
      have h2 := hafterU k m hk1 hkt
      rw [hm2] at h2
      simp at h2
  · intro h
    rw [extractTurn, if_pos h]
  · intro h
    rw [extractTurn]
    split
    · rfl
    · have hf : findLastIdx (fun m => decide (m.role = Role.assistant)) ms = none := by
        cases hf : findLastIdx (fun m => decide (m.role = Role.assistant)) ms with
        | none => rfl
        | some a =>
          obtain ⟨⟨x, h1, h2⟩, _⟩ := findLastIdx_some hf
          exact absurd (roleAt_some.mpr ⟨x, h1, by simpa using h2⟩) (h a)
      simp only [hf]
  · intro h
    rw [extractTurn]
    split
    · rfl
    · cases hf : findLastIdx (fun m => decide (m.role = Role.assistant)) ms with
      | none => simp only [hf]
      | some a =>
        have hg : findLastIdx (fun m => decide (m.role = Role.user)) (ms.take a) = none := by
          cases hg : findLastIdx (fun m => decide (m.role = Role.user)) (ms.take a) with
          | none => rfl
          | some u =>
            obtain ⟨⟨x, h1, h2⟩, _⟩ := findLastIdx_some hg
            have hul : u < (ms.take a).length := get?_some_lt h1
            have hua : u < a := by
              rw [List.length_take] at hul
              omega
            have hm : ms.get? u = some x := by
              rw [← List.get?_take hua]
              exact h1
            exact absurd (roleAt_some.mpr ⟨x, hm, by simpa using h2⟩) (h u)
        simp only [hf, hg]

theorem extractTurn_bounds {ms : List ParsedMessage} {u a : Nat}
    (h : extractTurn ms = some (u, a)) : u < a ∧ a < ms.length := by
  rw [extractTurn] at h
  split at h
  · exact absurd h (by simp)
  · cases hf : findLastIdx (fun m => decide (m.role = Role.assistant)) ms with
    | none =>
      rw [hf] at h
      exact absurd h (by simp)
    | some a' =>
      simp only [hf] at h
      cases hg : findLastIdx (fun m => decide (m.role = Role.user)) (ms.take a') with
      | none =>
        simp only [hg] at h
        exact absurd h (by simp)
      | some u' =>
        simp only [hg] at h
        have hpair : (u', a') = (u, a) := Option.some_inj.mp h
        have hu : u' = u := congrArg Prod.fst hpair
        have ha : a' = a := congrArg Prod.snd hpair
        subst hu
        subst ha
        obtain ⟨⟨xa, hxa, _⟩, _⟩ := findLastIdx_some hf
        obtain ⟨⟨xu, hxu, _⟩, _⟩ := findLastIdx_some hg
        have halen := get?_some_lt hxa
        have hulen := get?_some_lt hxu
        rw [List.length_take] at hulen
        exact ⟨by omega, halen⟩

/-- C4: for every transcript whose qualifying messages contain an
assistant message preceded by a user message, the Turn Extractor
returns the pair (nearest preceding user, last assistant); it abstains
when fewer than two qualifying messages remain, when no assistant
exists, and when no user exists. -/
theorem turn_extractor_correct (raw : List RawEntry) :
    ((∃ i j, i < j ∧ roleAt (parseMessages raw) i = some Role.user ∧
        roleAt (parseMessages raw) j = some Role.assistant) →
      ∃ u a, extractTurn (parseMessages raw) = some (u, a) ∧
        nearestPrecedingTurn (parseMessages raw) u a) ∧
    ((parseMessages raw).length < 2 → extractTurn (parseMessages raw) = none) ∧
    ((∀ k, roleAt (parseMessages raw) k ≠ some Role.assistant) →
      extractTurn (parseMessages raw) = none) ∧
    ((∀ k, roleAt (parseMessages raw) k ≠ some Role.user) →
      extractTurn (parseMessages raw) = none) :=
  extract_spec (parseMessages raw)

/-- C4 witness: a concrete hi/hello transcript (with one ignored
non-object entry) extracts the turn `(0, 1)`; a lone user message, a
user-only transcript, and an assistant-only transcript abstain. -/
theorem turn_extractor_correct_witness :
    (∃ u a, extractTurn (parseMessages
        [RawEntry.nonObj,
         RawEntry.obj (some "user") (RawContent.str "hi"),
         RawEntry.obj (some "assistant") (RawContent.str "hello")]) = some (u, a) ∧
      nearestPrecedingTurn (parseMessages
        [RawEntry.nonObj,
         RawEntry.obj (some "user") (RawContent.str "hi"),
         RawEntry.obj (some "assistant") (RawContent.str "hello")]) u a) ∧
    extractTurn (parseMessages [RawEntry.obj (some "user") (RawContent.str "hi")]) = none ∧
    extractTurn (parseMessages
      [RawEntry.obj (some "user") (RawContent.str "aa"),
       RawEntry.obj (some "user") (RawContent.str "bb")]) = none ∧
    extractTurn (parseMessages
      [RawEntry.obj (some "assistant") (RawContent.str "aa"),
       RawEntry.obj (some "assistant") (RawContent.str "bb")]) = none := by
  refine ⟨(turn_extractor_correct _).1 ⟨0, 1, by decide, by decide, by decide⟩,
    (turn_extractor_correct _).2.1 (by decide),
    (turn_extractor_correct _).2.2.1 ?_,
    (turn_extractor_correct _).2.2.2 ?_⟩
  · intro k
    have hms : parseMessages
        [RawEntry.obj (some "user") (RawContent.str "aa"),
         RawEntry.obj (some "user") (RawContent.str "bb")] =
        [⟨Role.user, "aa"⟩, ⟨Role.user, "bb"⟩] := by decide
    rw [hms]
    match k with
    | 0 => decide
    | 1 => decide
    | (n + 2) =>
      simp [roleAt]
  · intro k
    have hms : parseMessages
        [RawEntry.obj (some "assistant") (RawContent.str "aa"),
         RawEntry.obj (some "assistant") (RawContent.str "bb")] =
        [⟨Role.assistant, "aa"⟩, ⟨Role.assistant, "bb"⟩] := by decide
    rw [hms]
    match k with
    | 0 => decide
    | 1 => decide
    | (n + 2) =>
      simp [roleAt]

/-- C6: whenever the Turn Extractor produces the turn `(u, a)`, the
Context Window has at most 2 messages, is exactly the qualifying
messages at indices `[max(0, u-2), u)` (`u - 2` in truncated natural
subtraction), and contains neither of the Turn's own two positions. -/
theorem context_window_correct (raw : List RawEntry) (u a : Nat)
    (h : extractTurn (parseMessages raw) = some (u, a)) :
    (contextMessages (parseMessages raw) u).length ≤ 2 ∧
    (contextMessages (parseMessages raw) u).length = u - (u - 2) ∧
    (∀ k, k < (contextMessages (parseMessages raw) u).length →
      (contextMessages (parseMessages raw) u).get? k =
        (parseMessages raw).get? ((u - 2) + k)) ∧
    (∀ k, u - 2 ≤ k → k < u → k ≠ u ∧ k ≠ a) := by
  obtain ⟨hua, halen⟩ := extractTurn_bounds h
  have hulen : u ≤ (parseMessages raw).length := by omega
  have hlen2 : (contextMessages (parseMessages raw) u).length = u - (u - 2) := by
    rw [contextMessages, List.length_take, List.length_drop]
    apply min_eq_left
    omega
  refine ⟨?_, hlen2, ?_, ?_⟩
  · rw [hlen2]
    omega
  · intro k hk
    rw [hlen2] at hk
    rw [contextMessages, List.get?_take (by omega : k < u - (u - 2)), List.get?_drop]
  · intro k hk1 hk2
    omega

/-- C6 witness: on a four-message transcript the extracted turn is
`(2, 3)` and the Context Window is the two messages at indices 0 and 1. -/
theorem context_window_correct_witness :
    (contextMessages (parseMessages
      [RawEntry.obj (some "user") (RawContent.str "m1"),
       RawEntry.obj (some "assistant") (RawContent.str "m2"),
       RawEntry.obj (some "user") (RawContent.str "m3"),
       RawEntry.obj (some "assistant") (RawContent.str "m4")]) 2).length ≤ 2 ∧
    (contextMessages (parseMessages
      [RawEntry.obj (some "user") (RawContent.str "m1"),
       RawEntry.obj (some "assistant") (RawContent.str "m2"),
       RawEntry.obj (some "user") (RawContent.str "m3"),
       RawEntry.obj (some "assistant") (RawContent.str "m4")]) 2).length = 2 - (2 - 2) ∧
    (contextMessages (parseMessages
      [RawEntry.obj (some "user") (RawContent.str "m1"),
       RawEntry.obj (some "assistant") (RawContent.str "m2"),
       RawEntry.obj (some "user") (RawContent.str "m3"),
       RawEntry.obj (some "assistant") (RawContent.str "m4")]) 2).get? 0 =
      (parseMessages
        [RawEntry.obj (some "user") (RawContent.str "m1"),
         RawEntry.obj (some "assistant") (RawContent.str "m2"),
         RawEntry.obj (some "user") (RawContent.str "m3"),
         RawEntry.obj (some "assistant") (RawContent.str "m4")]).get? (2 - 2 + 0) ∧
    (0 ≠ 2 ∧ 0 ≠ 3) := by
  have h := context_window_correct
    [RawEntry.obj (some "user") (RawContent.str "m1"),
     RawEntry.obj (some "assistant") (RawContent.str "m2"),
     RawEntry.obj (some "user") (RawContent.str "m3"),
     RawEntry.obj (some "assistant") (RawContent.str "m4")] 2 3 (by decide)
  exact ⟨h.1, h.2.1, h.2.2.1 0 (by decide), h.2.2.2 0 (by decide) (by decide)⟩

/-! ## Lemmas: the Credential Resolver fallback scan -/

theorem scanProfiles_fallback (tok : String) :
    ∀ ps : List (String × AuthProfile),
      (∀ e ∈ ps, jsStartsWith e.1 "anthropic:" = true → truthyTok e.2.token = none) →
      scanProfiles tok ps = tok := by
  intro ps
  induction ps with
  | nil => intro _; rfl
  | cons e rest ih =>
    intro h
    obtain ⟨id, p⟩ := e
    have hrec : scanProfiles tok rest = tok :=
      ih fun x hx hxs => h x (List.mem_cons_of_mem _ hx) hxs
    by_cases hs : jsStartsWith id "anthropic:" = true
    · have htok : truthyTok p.token = none := h (id, p) (List.mem_cons_self _ _) hs
      simp [scanProfiles, hs, htok, hrec]
    · simp [scanProfiles, hs, hrec]

theorem scanProfiles_finds (tok : String) :
    ∀ ps : List (String × AuthProfile),
      (∃ e ∈ ps, jsStartsWith e.1 "anthropic:" = true ∧ (truthyTok e.2.token).isSome = true) →
      ∃ id p t, (id, p) ∈ ps ∧ jsStartsWith id "anthropic:" = true ∧
        truthyTok p.token = some t ∧ scanProfiles tok ps = t := by
  intro ps
  induction ps with
  | nil =>
    rintro ⟨e, he, _⟩
    cases he
  | cons e rest ih =>
    rintro ⟨f, hf, hfs, hft⟩
    obtain ⟨id, p⟩ := e
    by_cases hs : jsStartsWith id "anthropic:" = true
    · cases htok : truthyTok p.token with
      | some t =>
        exact ⟨id, p, t, List.mem_cons_self _ _, hs, htok, by simp [scanProfiles, hs, htok]⟩
      | none =>
        have hfrest : f ∈ rest := by
          rcases List.mem_cons.mp hf with h1 | h1
          · subst h1
            rw [htok] at hft
            exact absurd hft (by simp)
          · exact h1
        obtain ⟨id', p', t, hmem, hs', ht', heq⟩ := ih ⟨f, hfrest, hfs, hft⟩
        exact ⟨id', p', t, List.mem_cons_of_mem _ hmem, hs', ht',
          by simp [scanProfiles, hs, htok, heq]⟩
    · have hfrest : f ∈ rest := by
        rcases List.mem_cons.mp hf with h1 | h1
        · subst h1
          exact absurd hfs hs
        · exact h1
      obtain ⟨id', p', t, hmem, hs', ht', heq⟩ := ih ⟨f, hfrest, hfs, hft⟩
      exact ⟨id', p', t, List.mem_cons_of_mem _ hmem, hs', ht',
        by simp [scanProfiles, hs, heq]⟩

/-- C7: the Credential Resolver returns the static fallback when the
store is unreadable (absent or malformed) or contains no matching
profile; returns the `lastGood`-pointed profile's token when that
pointer names a profile with a (truthy) token; and otherwise returns the
token of some `anthropic:`-namespaced profile when one exists.  The
model is a total function, reflecting that no execution path of the
source can raise past the resolver's boundary. -/
theorem credential_resolver_correct :
    (∀ tok, resolveAnthropicToken tok ProfileStore.unreadable = tok) ∧
    (∀ tok d lg p t, d.lastGoodAnthropic = some lg → lg ≠ "" →
      (∃ ps, d.profiles = some ps ∧ lookupProfile ps lg = some p) →
      truthyTok p.token = some t →
      resolveAnthropicToken tok (ProfileStore.ok d) = t) ∧
    (∀ tok d, viaLastGood d = none →
      (∀ e ∈ d.profiles.getD [], jsStartsWith e.1 "anthropic:" = true →
        truthyTok e.2.token = none) →
      resolveAnthropicToken tok (ProfileStore.ok d) = tok) ∧
    (∀ tok d, viaLastGood d = none →
      (∃ e ∈ d.profiles.getD [], jsStartsWith e.1 "anthropic:" = true ∧
        (truthyTok e.2.token).isSome = true) →
      ∃ id p t, (id, p) ∈ d.profiles.getD [] ∧ jsStartsWith id "anthropic:" = true ∧
        truthyTok p.token = some t ∧
        resolveAnthropicToken tok (ProfileStore.ok d) = t) := by
  refine ⟨fun tok => rfl, ?_, ?_, ?_⟩
  · rintro tok d lg p t hlg hne ⟨ps, hps, hlook⟩ htok
    have hvia : viaLastGood d = some t := by
      simp [viaLastGood, hlg, hne, hps, hlook, htok]
    simp [resolveAnthropicToken, hvia]
  · intro tok d hvia hnone
    simp only [resolveAnthropicToken, hvia]
    exact scanProfiles_fallback tok _ hnone
  · intro tok d hvia hex
    obtain ⟨id, p, t, hmem, hs, ht, heq⟩ := scanProfiles_finds tok _ hex
    refine ⟨id, p, t, hmem, hs, ht, ?_⟩
    simp only [resolveAnthropicToken, hvia]
    exact heq

/-- C7 witness: the four resolver behaviours at concrete stores. -/
theorem credential_resolver_correct_witness :
    resolveAnthropicToken "fb" ProfileStore.unreadable = "fb" ∧
    resolveAnthropicToken "fb"
      (ProfileStore.ok ⟨some "anthropic:a", some [("anthropic:a", ⟨some "tok1"⟩)]⟩) = "tok1" ∧
    resolveAnthropicToken "fb"
      (ProfileStore.ok ⟨none, some [("openai:x", ⟨some "n"⟩)]⟩) = "fb" ∧
    (∃ id p t, (id, p) ∈ (AuthData.profiles
        ⟨none, some [("openai:x", ⟨some "n"⟩), ("anthropic:b", ⟨some "tok2"⟩)]⟩).getD [] ∧
      jsStartsWith id "anthropic:" = true ∧ truthyTok p.token = some t ∧
      resolveAnthropicToken "fb"
        (ProfileStore.ok ⟨none, some [("openai:x", ⟨some "n"⟩), ("anthropic:b", ⟨some "tok2"⟩)]⟩) = t) :=
  ⟨credential_resolver_correct.1 "fb",
   credential_resolver_correct.2.1 "fb" _ "anthropic:a" ⟨some "tok1"⟩ "tok1" rfl (by decide)
     ⟨[("anthropic:a", ⟨some "tok1"⟩)], rfl, by decide⟩ (by decide),
   credential_resolver_correct.2.2.1 "fb" _ rfl (by decide),
   credential_resolver_correct.2.2.2 "fb" _ rfl
     ⟨("anthropic:b", ⟨some "tok2"⟩), by decide, by decide, by decide⟩⟩
